import Mathlib

/-!
Shallow embedding of the `noether` powerset lattice fixture
(`examples/lattice.rs`) and the lattice/set trait contracts it implements
(`src/lattice.rs`, `src/sets.rs`).

`Powerset<N>` stores a `u64` bitmask; machine words are modelled as `Nat`
with bitwise operations, where the `u64` bitwise NOT `!m` is embedded as
`m ^^^ (2 ^ 64 - 1)` (exact for every `m < 2 ^ 64`, which every `u64` value
satisfies).
-/

namespace Noether

/-- Scan the low `fuel` bits of `m` for the least set bit, counting the
zeros below it. -/
def tzAux : Nat → Nat → Nat
  | 0, _ => 0
  | fuel + 1, m => if m % 2 = 1 then 0 else 1 + tzAux fuel (m / 2)

/-- Embedding of `u64::trailing_zeros`: index of the least set bit of `m`
(64 for `m = 0`, as in Rust), scanning the 64 bits of a `u64`. -/
def trailingZeros (m : Nat) : Nat := tzAux 64 m

/-- `Powerset<N>`: a subset of a universe of size `N` as a `u64` bitmask
(`examples/lattice.rs`). -/
structure Powerset (N : Nat) where
  mask : Nat
deriving DecidableEq

namespace Powerset

variable {N : Nat}

/-- `Iterator::next` of the fixture: yields the lowest set bit index and the
updated receiver (the source mutates `self.mask` in place; the second
component is the receiver's value after the call). -/
def next (p : Powerset N) : Option (Nat × Powerset N) :=
  if p.mask = 0 then none
  else
    let tz := trailingZeros p.mask
    some (tz, ⟨p.mask &&& ((1 <<< tz) ^^^ (2 ^ 64 - 1))⟩)

/-- Repeatedly calling `next` (the language's iteration protocol), with a
step budget `fuel`; returns the yielded items and the final receiver state. -/
def drain : Nat → Powerset N → List Nat × Powerset N
  | 0, p => ([], p)
  | fuel + 1, p =>
    match p.next with
    | none => ([], p)
    | some (i, q) =>
      let r := drain fuel q
      (i :: r.1, r.2)

/-- Iterating a powerset value to exhaustion: a budget of `mask + 1` calls to
`next` always suffices because each successful call strictly decreases the
mask (proved below). -/
def iterate (p : Powerset N) : List Nat × Powerset N :=
  drain (p.mask + 1) p

/-- `FromIterator::from_iter`: fold the indices into a mask via `1 << i` and
bitwise OR. -/
def fromIter (l : List Nat) : Powerset N :=
  ⟨(l.map (fun i => 1 <<< i)).foldl (fun acc x => acc ||| x) 0⟩

/-- `PartialOrd::partial_cmp` of the fixture: subset comparison via
`meet = self.mask & other.mask`; the source's four-way match on
`(self.mask == meet, other.mask == meet)` is rendered as the same four-case
dispatch. -/
def partialCmp (a b : Powerset N) : Option Ordering :=
  let meet := a.mask &&& b.mask
  if a.mask = meet then
    if b.mask = meet then some .eq else some .lt
  else
    if b.mask = meet then some .gt else none

/-- `JoinSemiLattice::join`: bitwise OR. -/
def join (a b : Powerset N) : Powerset N := ⟨a.mask ||| b.mask⟩

/-- `MeetSemiLattice::meet`: bitwise AND. -/
def meet (a b : Powerset N) : Powerset N := ⟨a.mask &&& b.mask⟩

/-- `LowerBounded::infimum`: the all-zero mask. -/
def infimum : Powerset N := ⟨0⟩

/-- `UpperBounded::supremum`: `!0u64 >> (64 - N)`. -/
def supremum : Powerset N := ⟨(2 ^ 64 - 1) >>> (64 - N)⟩

/-- `BooleanAlgebra::complement`: `!self.mask & Self::supremum().mask`. -/
def complement (a : Powerset N) : Powerset N :=
  ⟨(a.mask ^^^ (2 ^ 64 - 1)) &&& (supremum (N := N)).mask⟩

/-- `SymmetricDifference::sym_diff`: bitwise XOR. -/
def symDiff (a b : Powerset N) : Powerset N := ⟨a.mask ^^^ b.mask⟩

/-- The derived `Ord` on `Powerset<N>` (`#[derive(Ord)]` on a single-field
struct): compare the raw masks as unsigned integers. -/
def cmp (a b : Powerset N) : Ordering := compare a.mask b.mask

/-- The expression printed as `a Δ b (via join+meet/complements)` in the
fixture's `main`:
`a.join(&b).meet(&a.complement().join(&b.complement()).complement())`. -/
def symDiffViaLattice (a b : Powerset N) : Powerset N :=
  (a.join b).meet ((a.complement.join b.complement).complement)

/-- The spec's representation invariant: bits of the mask at positions `≥ N`
are zero. -/
def bitsHighClear (p : Powerset N) : Prop :=
  ∀ i, N ≤ i → p.mask.testBit i = false

/-- Bitwise-subset relation on masks, as used by `partial_cmp`. -/
def subsetMask (a b : Powerset N) : Prop := a.mask &&& b.mask = a.mask

instance (a b : Powerset N) : Decidable (subsetMask a b) := by
  unfold subsetMask; infer_instance

end Powerset

/-! ### Basic facts about the representation invariant -/

theorem Powerset.bitsHighClear_iff {N : Nat} (p : Powerset N) :
    p.bitsHighClear ↔ p.mask < 2 ^ N := by
  constructor
  · intro h
    have hmod : p.mask &&& (2 ^ N - 1) = p.mask := by
      apply Nat.eq_of_testBit_eq
      intro i
      rw [Nat.testBit_and, Nat.testBit_two_pow_sub_one]
      by_cases hi : i < N
      · simp [hi]
      · simp [hi, h i (Nat.le_of_not_lt hi)]
    calc p.mask = p.mask &&& (2 ^ N - 1) := hmod.symm
      _ ≤ 2 ^ N - 1 := Nat.and_le_right
      _ < 2 ^ N := Nat.sub_lt (Nat.pos_pow_of_pos N (by decide)) (by decide)
  · intro h i hi
    exact Nat.testBit_lt_two_pow (lt_of_lt_of_le h (Nat.pow_le_pow_right (by decide) hi))

instance {N : Nat} (p : Powerset N) : Decidable p.bitsHighClear :=
  decidable_of_iff (p.mask < 2 ^ N) (Powerset.bitsHighClear_iff p).symm

/-! ### Facts about `trailingZeros` -/

theorem tzAux_least :
    ∀ fuel m, ∀ j < tzAux fuel m, m.testBit j = false := by
  intro fuel
  induction fuel with
  | zero => intro m j hj; simp [tzAux] at hj
  | succ f ih =>
    intro m j hj
    rw [tzAux] at hj
    by_cases h1 : m % 2 = 1
    · rw [if_pos h1] at hj; omega
    · rw [if_neg h1] at hj
      match j with
      | 0 => simp [Nat.testBit_zero, h1]
      | j' + 1 =>
        rw [Nat.testBit_add_one]
        exact ih (m / 2) j' (by omega)

theorem trailingZeros_least :
    ∀ m, ∀ j < trailingZeros m, m.testBit j = false :=
  fun m => tzAux_least 64 m

theorem tzAux_testBit :
    ∀ fuel m, m ≠ 0 → m < 2 ^ fuel → m.testBit (tzAux fuel m) = true := by
  intro fuel
  induction fuel with
  | zero => intro m h0 hm; omega
  | succ f ih =>
    intro m h0 hm
    rw [tzAux]
    by_cases h1 : m % 2 = 1
    · rw [if_pos h1]; simp [Nat.testBit_zero, h1]
    · rw [if_neg h1]
      have hm2 : m / 2 ≠ 0 := by omega
      have hlt : m / 2 < 2 ^ f := by
        have : (2 : Nat) ^ (f + 1) = 2 ^ f * 2 := by rw [pow_succ]
        omega
      rw [Nat.add_comm, Nat.testBit_add_one]
      exact ih (m / 2) hm2 hlt

theorem trailingZeros_testBit :
    ∀ m, m ≠ 0 → m < 2 ^ 64 → m.testBit (trailingZeros m) = true :=
  fun m => tzAux_testBit 64 m

/-- Clearing bit `t` of a `u64` value: `m & !(1 << t)` keeps exactly the bits
of `m` other than bit `t`. -/
theorem clearBit_testBit {m t : Nat} (hm : m < 2 ^ 64) (j : Nat) :
    (m &&& ((1 <<< t) ^^^ (2 ^ 64 - 1))).testBit j
      = (m.testBit j && decide (j ≠ t)) := by
  rw [Nat.testBit_and, Nat.testBit_xor, Nat.one_shiftLeft, Nat.testBit_two_pow,
    Nat.testBit_two_pow_sub_one]
  by_cases hj : j < 64
  · have hd : decide (j < 64) = true := decide_eq_true hj
    rw [hd]
    cases hmt : m.testBit j <;> simp [Bool.xor_true, decide_not, ne_comm]
  · have hmj : m.testBit j = false :=
      Nat.testBit_lt_two_pow
        (lt_of_lt_of_le hm (Nat.pow_le_pow_right (by decide) (by omega)))
    simp [hmj]

/-! ### Facts about `supremum` -/

theorem supremum_mask_eq {N : Nat} (hN : N ≤ 64) :
    (Powerset.supremum (N := N)).mask = 2 ^ N - 1 := by
  show (2 ^ 64 - 1) >>> (64 - N) = 2 ^ N - 1
  rw [Nat.shiftRight_eq_div_pow]
  have ha : 0 < 2 ^ (64 - N) := Nat.two_pow_pos (64 - N)
  have hmul : 2 ^ (64 - N) * 2 ^ N = 2 ^ 64 := by
    rw [← pow_add]; congr 1; omega
  have hsplit : 2 ^ 64 - 1 = (2 ^ (64 - N) - 1) + 2 ^ (64 - N) * (2 ^ N - 1) := by
    have hone : 0 < 2 ^ N := Nat.two_pow_pos N
    have hsucc : 2 ^ (64 - N) * ((2 ^ N - 1) + 1) = 2 ^ (64 - N) * (2 ^ N - 1) + 2 ^ (64 - N) :=
      Nat.mul_succ _ _
    rw [Nat.sub_add_cancel hone, hmul] at hsucc
    omega
  rw [hsplit, Nat.add_mul_div_left _ _ ha, Nat.div_eq_of_lt (by omega)]
  omega

theorem supremum_mask_lt (N : Nat) : (Powerset.supremum (N := N)).mask < 2 ^ N := by
  show (2 ^ 64 - 1) >>> (64 - N) < 2 ^ N
  rw [Nat.shiftRight_eq_div_pow, Nat.div_lt_iff_lt_mul (Nat.two_pow_pos _)]
  calc 2 ^ 64 - 1 < 2 ^ 64 := Nat.sub_lt (Nat.two_pow_pos 64) (by decide)
    _ ≤ 2 ^ (N + (64 - N)) := Nat.pow_le_pow_right (by decide) (by omega)
    _ = 2 ^ N * 2 ^ (64 - N) := pow_add 2 N (64 - N)

/-! ### Facts about the iteration step -/

theorem next_eq_none {N : Nat} {m : Nat} (h0 : m = 0) :
    Powerset.next (⟨m⟩ : Powerset N) = none := by
  simp [Powerset.next, h0]

theorem next_eq_some {N : Nat} {m : Nat} (h0 : m ≠ 0) :
    Powerset.next (⟨m⟩ : Powerset N)
      = some (trailingZeros m,
          ⟨m &&& ((1 <<< trailingZeros m) ^^^ (2 ^ 64 - 1))⟩) := by
  simp [Powerset.next, h0]

theorem clearLow_lt {m : Nat} (h0 : m ≠ 0) (hm : m < 2 ^ 64) :
    m &&& ((1 <<< trailingZeros m) ^^^ (2 ^ 64 - 1)) < m := by
  refine lt_of_le_of_ne Nat.and_le_left ?_
  intro heq
  have hbit := clearBit_testBit (t := trailingZeros m) hm (trailingZeros m)
  rw [heq] at hbit
  simp [trailingZeros_testBit m h0 hm] at hbit

theorem drain_spec :
    ∀ m, m < 2 ^ 64 → ∀ fuel, m < fuel → ∀ (N : Nat),
      (Powerset.drain fuel (⟨m⟩ : Powerset N)).2 = ⟨0⟩ ∧
      List.Pairwise (· < ·) (Powerset.drain fuel (⟨m⟩ : Powerset N)).1 ∧
      ∀ i, i ∈ (Powerset.drain fuel (⟨m⟩ : Powerset N)).1 ↔ m.testBit i = true := by
  intro m
  induction m using Nat.strong_induction_on with
  | _ m ih =>
    intro hm fuel hfuel N
    obtain ⟨f, rfl⟩ : ∃ f, fuel = f + 1 := ⟨fuel - 1, by omega⟩
    by_cases h0 : m = 0
    · subst h0
      simp [Powerset.drain, next_eq_none rfl, Nat.zero_testBit]
    · rw [Powerset.drain]
      rw [next_eq_some h0]
      set q := m &&& ((1 <<< trailingZeros m) ^^^ (2 ^ 64 - 1)) with hq
      have hqlt : q < m := clearLow_lt h0 hm
      have hq64 : q < 2 ^ 64 := lt_of_lt_of_le hqlt (Nat.le_of_lt hm)
      have hqbit : ∀ j, q.testBit j = (m.testBit j && decide (j ≠ trailingZeros m)) :=
        fun j => clearBit_testBit hm j
      obtain ⟨hfin, hpair, hmem⟩ := ih q hqlt hq64 f (by omega) N
      refine ⟨hfin, ?_, ?_⟩
      · refine List.Pairwise.cons ?_ hpair
        intro j hj
        have hjq : q.testBit j = true := (hmem j).mp hj
        rw [hqbit j] at hjq
        have hjm : m.testBit j = true := by
          cases hb : m.testBit j with
          | false => rw [hb] at hjq; simp at hjq
          | true => rfl
        have hne : j ≠ trailingZeros m := by
          intro hcontra
          rw [hcontra] at hjq
          simp at hjq
        rcases Nat.lt_or_ge j (trailingZeros m) with hlt | hge
        · rw [trailingZeros_least m j hlt] at hjm; exact absurd hjm (by simp)
        · omega
      · intro i
        simp only [List.mem_cons, hmem i, hqbit i]
        constructor
        · rintro (rfl | hbits)
          · exact trailingZeros_testBit m h0 hm
          · cases hb : m.testBit i with
            | false => rw [hb] at hbits; simp at hbits
            | true => rfl
        · intro hbi
          by_cases hi : i = trailingZeros m
          · exact Or.inl hi
          · exact Or.inr (by rw [hbi]; simp [hi])

/-! ### Further helper lemmas -/

theorem Powerset.ext_mask {N : Nat} {a b : Powerset N} (h : a.mask = b.mask) :
    a = b := by
  cases a; cases b; simpa using h

theorem complement_testBit {N : Nat} (hN : N ≤ 64) (a : Powerset N) (i : Nat) :
    a.complement.mask.testBit i = (!a.mask.testBit i && decide (i < N)) := by
  show ((a.mask ^^^ (2 ^ 64 - 1)) &&& (Powerset.supremum (N := N)).mask).testBit i
    = (!a.mask.testBit i && decide (i < N))
  rw [supremum_mask_eq hN, Nat.testBit_and, Nat.testBit_xor,
    Nat.testBit_two_pow_sub_one, Nat.testBit_two_pow_sub_one]
  by_cases hi : i < N
  · have h64 : i < 64 := by omega
    simp [hi, h64, Bool.xor_true]
  · simp [hi]

theorem subsetMask_antisymm {N : Nat} {a b : Powerset N}
    (hab : a.subsetMask b) (hba : b.subsetMask a) : a = b := by
  apply Powerset.ext_mask
  calc a.mask = a.mask &&& b.mask := hab.symm
    _ = b.mask &&& a.mask := Nat.and_comm _ _
    _ = b.mask := hba

/-! ### Claim theorems -/

/-- **C1.** Representation invariant of the bitmask powerset: constructing a
value from indices all below `N` yields a mask whose bits at positions `≥ N`
are zero, and the invariant is preserved by `join`, `meet`, `complement`,
`sym_diff`, `infimum`, `supremum`, and each step of iteration (`next`). -/
theorem powerset_invariant_preserved (N : Nat) (l : List Nat) (a b p : Powerset N)
    (hl : ∀ i ∈ l, i < N) (ha : a.bitsHighClear) (hb : b.bitsHighClear)
    (hp : p.bitsHighClear) :
    (Powerset.fromIter (N := N) l).bitsHighClear
    ∧ (a.join b).bitsHighClear
    ∧ (a.meet b).bitsHighClear
    ∧ a.complement.bitsHighClear
    ∧ (a.symDiff b).bitsHighClear
    ∧ (Powerset.infimum (N := N)).bitsHighClear
    ∧ (Powerset.supremum (N := N)).bitsHighClear
    ∧ (∀ i q, p.next = some (i, q) → q.bitsHighClear) := by
  rw [Powerset.bitsHighClear_iff] at ha hb hp
  simp only [Powerset.bitsHighClear_iff]
  refine ⟨?_, ?_, ?_, ?_, ?_, ?_, ?_, ?_⟩
  · show (l.map (fun i => 1 <<< i)).foldl (fun acc x => acc ||| x) 0 < 2 ^ N
    have : ∀ (l' : List Nat), (∀ i ∈ l', i < N) → ∀ acc, acc < 2 ^ N →
        (l'.map (fun i => 1 <<< i)).foldl (fun acc x => acc ||| x) acc < 2 ^ N := by
      intro l'
      induction l' with
      | nil => intro _ acc hacc; simpa using hacc
      | cons x xs ih =>
        intro hmem acc hacc
        simp only [List.map_cons, List.foldl_cons]
        refine ih (fun i hi => hmem i (List.mem_cons_of_mem x hi)) _ ?_
        refine Nat.or_lt_two_pow hacc ?_
        rw [Nat.one_shiftLeft]
        exact Nat.pow_lt_pow_right (by decide) (hmem x (List.mem_cons_self x xs))
    exact this l hl 0 (Nat.two_pow_pos N)
  · exact Nat.or_lt_two_pow ha hb
  · exact Nat.and_lt_two_pow _ hb
  · exact Nat.and_lt_two_pow _ (supremum_mask_lt N)
  · exact Nat.xor_lt_two_pow ha hb
  · exact Nat.two_pow_pos N
  · exact supremum_mask_lt N
  · intro i q hnext
    obtain ⟨m⟩ := p
    by_cases h0 : m = 0
    · rw [next_eq_none h0] at hnext; exact absurd hnext (by simp)
    · rw [next_eq_some h0] at hnext
      have h' := Option.some.inj hnext
      have hq : q = ⟨m &&& ((1 <<< trailingZeros m) ^^^ (2 ^ 64 - 1))⟩ :=
        (congrArg Prod.snd h').symm
      subst hq
      exact lt_of_le_of_lt Nat.and_le_left hp

/-- Witness for C1 at `N = 5`, `l = [0,2]`, `a = {0,2}`, `b = {1,2,4}`,
`p = {0,2}`. -/
theorem powerset_invariant_preserved_witness :
    (Powerset.fromIter (N := 5) [0, 2]).bitsHighClear :=
  (powerset_invariant_preserved 5 [0, 2] ⟨5⟩ ⟨22⟩ ⟨5⟩ (by decide) (by decide)
    (by decide) (by decide)).1

/-- **C2.** Boolean-algebra complement laws of the fixture: for every valid
value `a` (mask bits `≥ N` zero, `N ≤ 64`), `join(a, complement(a))` is
`supremum()` and `meet(a, complement(a))` is `infimum()`. -/
theorem boolean_complement_laws (N : Nat) (hN : N ≤ 64) (a : Powerset N)
    (ha : a.bitsHighClear) :
    a.join a.complement = Powerset.supremum
    ∧ a.meet a.complement = Powerset.infimum := by
  constructor
  · apply Powerset.ext_mask
    apply Nat.eq_of_testBit_eq
    intro i
    show (a.mask ||| a.complement.mask).testBit i = _
    rw [Nat.testBit_or, complement_testBit hN, supremum_mask_eq hN,
      Nat.testBit_two_pow_sub_one]
    by_cases hi : i < N
    · cases hb : a.mask.testBit i <;> simp [hi]
    · simp [hi, ha i (Nat.le_of_not_lt hi)]
  · apply Powerset.ext_mask
    apply Nat.eq_of_testBit_eq
    intro i
    show (a.mask &&& a.complement.mask).testBit i = Nat.testBit 0 i
    rw [Nat.testBit_and, complement_testBit hN, Nat.zero_testBit]
    cases hb : a.mask.testBit i <;> simp

/-- Witness for C2 at `N = 5`, `a = {0,2}`. -/
theorem boolean_complement_laws_witness :
    Powerset.join (⟨5⟩ : Powerset 5) (Powerset.complement ⟨5⟩) = Powerset.supremum :=
  (boolean_complement_laws 5 (by decide) ⟨5⟩ (by decide)).1

/-- **C3.** `partial_cmp` of the fixture returns `none` exactly when neither
mask is a bitwise subset of the other, and otherwise `lt`/`gt`/`eq` according
to the proper-subset / proper-superset / equal-mask relation; in particular
`{0,2}` vs `{0,2,4}` is `lt` and `{0,2}` vs `{1,3}` is incomparable. -/
theorem partial_cmp_subset_order :
    (∀ (N : Nat) (a b : Powerset N),
      (a.partialCmp b = none ↔ ¬a.subsetMask b ∧ ¬b.subsetMask a)
      ∧ (a.partialCmp b = some .lt ↔ a.subsetMask b ∧ a ≠ b)
      ∧ (a.partialCmp b = some .gt ↔ b.subsetMask a ∧ b ≠ a)
      ∧ (a.partialCmp b = some .eq ↔ a = b))
    ∧ Powerset.partialCmp (Powerset.fromIter (N := 5) [0, 2])
        (Powerset.fromIter [0, 2, 4]) = some .lt
    ∧ Powerset.partialCmp (Powerset.fromIter (N := 5) [0, 2])
        (Powerset.fromIter [1, 3]) = none := by
  refine ⟨?_, by decide, by decide⟩
  intro N a b
  have hs1 : a.subsetMask b ↔ a.mask = a.mask &&& b.mask :=
    ⟨fun h => h.symm, fun h => h.symm⟩
  have hs2 : b.subsetMask a ↔ b.mask = a.mask &&& b.mask := by
    rw [Powerset.subsetMask, Nat.and_comm b.mask a.mask]
    exact ⟨fun h => h.symm, fun h => h.symm⟩
  by_cases h1 : a.mask = a.mask &&& b.mask
  · by_cases h2 : b.mask = a.mask &&& b.mask
    · have hval : a.partialCmp b = some .eq := by
        unfold Powerset.partialCmp; rw [if_pos h1, if_pos h2]
      have hab : a = b := Powerset.ext_mask (h1.trans h2.symm)
      rw [hval]
      exact ⟨iff_of_false (by simp) (fun h => h.1 (hs1.mpr h1)),
        iff_of_false (by simp) (fun h => h.2 hab),
        iff_of_false (by simp) (fun h => h.2 hab.symm),
        iff_of_true rfl hab⟩
    · have hval : a.partialCmp b = some .lt := by
        unfold Powerset.partialCmp; rw [if_pos h1, if_neg h2]
      have hne : a ≠ b := fun h =>
        h2 ((congrArg Powerset.mask h).symm.trans h1)
      rw [hval]
      exact ⟨iff_of_false (by simp) (fun h => h.1 (hs1.mpr h1)),
        iff_of_true rfl ⟨hs1.mpr h1, hne⟩,
        iff_of_false (by simp) (fun h => h2 (hs2.mp h.1)),
        iff_of_false (by simp) hne⟩
  · by_cases h2 : b.mask = a.mask &&& b.mask
    · have hval : a.partialCmp b = some .gt := by
        unfold Powerset.partialCmp; rw [if_neg h1, if_pos h2]
      have hne : b ≠ a := fun h =>
        h1 ((congrArg Powerset.mask h).symm.trans h2)
      rw [hval]
      exact ⟨iff_of_false (by simp) (fun h => h.2 (hs2.mpr h2)),
        iff_of_false (by simp) (fun h => h1 (hs1.mp h.1)),
        iff_of_true rfl ⟨hs2.mpr h2, hne⟩,
        iff_of_false (by simp) (fun hab => h1 ((congrArg Powerset.mask hab).trans h2))⟩
    · have hval : a.partialCmp b = none := by
        unfold Powerset.partialCmp; rw [if_neg h1, if_neg h2]
      rw [hval]
      exact ⟨iff_of_true rfl ⟨fun hs => h1 (hs1.mp hs), fun hs => h2 (hs2.mp hs)⟩,
        iff_of_false (by simp) (fun h => h1 (hs1.mp h.1)),
        iff_of_false (by simp) (fun h => h2 (hs2.mp h.1)),
        iff_of_false (by simp)
          (fun hab => h1 (by rw [hab]; exact (Nat.and_self b.mask).symm))⟩

/-- **C4 counterexample.** The iteration step *does* mutate its receiver: on
the value `{0,2}` (mask 5), `next` yields `0` and leaves the receiver with
mask 4, which differs from the original. -/
theorem next_mutates_receiver :
    Powerset.next (⟨5⟩ : Powerset 5) = some (0, ⟨4⟩)
    ∧ (⟨4⟩ : Powerset 5) ≠ (⟨5⟩ : Powerset 5) := by decide

/-- **C4 (amended).** Operations other than the iteration step are pure
value-to-value functions; the iteration step, on a non-exhausted receiver,
yields the lowest set bit and updates the receiver by clearing that bit — a
state different from the original. On an exhausted receiver (`mask = 0`) it
returns `none` and there is no update. -/
theorem next_receiver_update (N : Nat) (p : Powerset N) (hm : p.mask < 2 ^ 64) :
    (p.mask = 0 → p.next = none)
    ∧ ∀ i q, p.next = some (i, q) →
        q.mask = p.mask &&& ((1 <<< i) ^^^ (2 ^ 64 - 1)) ∧ q ≠ p := by
  obtain ⟨m⟩ := p
  refine ⟨fun h0 => next_eq_none h0, ?_⟩
  intro i q hnext
  by_cases h0 : m = 0
  · rw [next_eq_none h0] at hnext; exact absurd hnext (by simp)
  · rw [next_eq_some h0] at hnext
    have h' := Option.some.inj hnext
    have hi : i = trailingZeros m := (congrArg Prod.fst h').symm
    have hq : q = ⟨m &&& ((1 <<< trailingZeros m) ^^^ (2 ^ 64 - 1))⟩ :=
      (congrArg Prod.snd h').symm
    subst hi; subst hq
    refine ⟨rfl, ?_⟩
    intro hcontra
    have := clearLow_lt h0 hm
    have : m &&& ((1 <<< trailingZeros m) ^^^ (2 ^ 64 - 1)) = m :=
      congrArg Powerset.mask hcontra
    omega

/-- Witness for the amended C4 at `p = {0,2} : Powerset 5`, where `next`
yields bit `0` and leaves the receiver at mask `4`. -/
theorem next_receiver_update_witness :
    (⟨4⟩ : Powerset 5).mask = 5 &&& ((1 <<< 0) ^^^ (2 ^ 64 - 1))
    ∧ (⟨4⟩ : Powerset 5) ≠ (⟨5⟩ : Powerset 5) :=
  (next_receiver_update 5 ⟨5⟩ (by decide)).2 0 ⟨4⟩ (by decide)

/-- **C5.** Distributive law of the fixture:
`join(a, meet(b, c)) = meet(join(a, b), join(a, c))` for every valid triple;
at `a = {0,2}`, `b = {1,2,4}`, `c = {0,1}` both sides equal `{0,1,2}`. -/
theorem distributive_law (N : Nat) (a b c : Powerset N)
    (_ha : a.bitsHighClear) (_hb : b.bitsHighClear) (_hc : c.bitsHighClear) :
    a.join (b.meet c) = (a.join b).meet (a.join c)
    ∧ Powerset.join (Powerset.fromIter (N := 5) [0, 2])
        (Powerset.meet (Powerset.fromIter [1, 2, 4]) (Powerset.fromIter [0, 1]))
      = Powerset.fromIter [0, 1, 2]
    ∧ Powerset.meet
        (Powerset.join (Powerset.fromIter (N := 5) [0, 2]) (Powerset.fromIter [1, 2, 4]))
        (Powerset.join (Powerset.fromIter (N := 5) [0, 2]) (Powerset.fromIter [0, 1]))
      = Powerset.fromIter [0, 1, 2] := by
  refine ⟨?_, by decide, by decide⟩
  apply Powerset.ext_mask
  apply Nat.eq_of_testBit_eq
  intro i
  show (a.mask ||| b.mask &&& c.mask).testBit i
    = ((a.mask ||| b.mask) &&& (a.mask ||| c.mask)).testBit i
  rw [Nat.testBit_or, Nat.testBit_and, Nat.testBit_and, Nat.testBit_or,
    Nat.testBit_or]
  exact Bool.or_and_distrib_left _ _ _

/-- Witness for C5 at `N = 5`, `a = {0,2}`, `b = {1,2,4}`, `c = {0,1}`. -/
theorem distributive_law_witness :
    Powerset.join (⟨5⟩ : Powerset 5) (Powerset.meet ⟨22⟩ ⟨3⟩)
      = Powerset.meet (Powerset.join ⟨5⟩ ⟨22⟩) (Powerset.join ⟨5⟩ ⟨3⟩) :=
  (distributive_law 5 ⟨5⟩ ⟨22⟩ ⟨3⟩ (by decide) (by decide) (by decide)).1

/-- **C6.** The identity `a Δ b = (a ∨ b) ∧ ¬(a ∧ b)` does hold for `sym_diff`
on valid values, but the expression the fixture's `main` prints under the
label `a Δ b (via join+meet/complements)` —
`a.join(&b).meet(&a.complement().join(&b.complement()).complement())` — has an
extra complement (`¬(¬a ∨ ¬b) = a ∧ b`), so it computes the *intersection*
`a ∧ b` instead; at `a = {0,2}`, `b = {1,2,4}` it yields `{2}` while
`sym_diff` yields `{0,1,4}`. -/
theorem sym_diff_identity_vs_fixture (N : Nat) (hN : N ≤ 64) (a b : Powerset N)
    (ha : a.bitsHighClear) (hb : b.bitsHighClear) :
    ((a.join b).meet (a.meet b).complement = a.symDiff b)
    ∧ (a.symDiffViaLattice b = a.meet b)
    ∧ (Powerset.symDiffViaLattice (Powerset.fromIter (N := 5) [0, 2])
        (Powerset.fromIter [1, 2, 4]) = Powerset.fromIter [2])
    ∧ (Powerset.symDiff (Powerset.fromIter (N := 5) [0, 2])
        (Powerset.fromIter [1, 2, 4]) = Powerset.fromIter [0, 1, 4])
    ∧ Powerset.symDiffViaLattice (Powerset.fromIter (N := 5) [0, 2])
        (Powerset.fromIter [1, 2, 4])
      ≠ Powerset.symDiff (Powerset.fromIter (N := 5) [0, 2])
        (Powerset.fromIter [1, 2, 4]) := by
  refine ⟨?_, ?_, by decide, by decide, by decide⟩
  · apply Powerset.ext_mask
    apply Nat.eq_of_testBit_eq
    intro i
    show ((a.mask ||| b.mask) &&& (a.meet b).complement.mask).testBit i
      = (a.mask ^^^ b.mask).testBit i
    rw [Nat.testBit_and, Nat.testBit_or, complement_testBit hN, Nat.testBit_xor]
    show (_ && (!(a.mask &&& b.mask).testBit i && _)) = _
    rw [Nat.testBit_and]
    by_cases hi : i < N
    · cases hx : a.mask.testBit i <;> cases hy : b.mask.testBit i <;> simp [hi]
    · simp [ha i (Nat.le_of_not_lt hi), hb i (Nat.le_of_not_lt hi)]
  · apply Powerset.ext_mask
    apply Nat.eq_of_testBit_eq
    intro i
    show ((a.mask ||| b.mask) &&& (a.complement.join b.complement).complement.mask).testBit i
      = (a.mask &&& b.mask).testBit i
    rw [Nat.testBit_and, Nat.testBit_or, complement_testBit hN, Nat.testBit_and]
    show (_ && (!(a.complement.mask ||| b.complement.mask).testBit i && _)) = _
    rw [Nat.testBit_or, complement_testBit hN, complement_testBit hN]
    by_cases hi : i < N
    · cases hx : a.mask.testBit i <;> cases hy : b.mask.testBit i <;> simp [hi]
    · simp [ha i (Nat.le_of_not_lt hi), hi]

/-- Witness for C6 at `N = 5`, `a = {0,2}`, `b = {1,2,4}`. -/
theorem sym_diff_identity_vs_fixture_witness :
    Powerset.meet (Powerset.join (⟨5⟩ : Powerset 5) ⟨22⟩)
        (Powerset.complement (Powerset.meet ⟨5⟩ ⟨22⟩))
      = Powerset.symDiff ⟨5⟩ ⟨22⟩ :=
  (sym_diff_identity_vs_fixture 5 (by decide) ⟨5⟩ ⟨22⟩ (by decide) (by decide)).1

/-- **C7.** Symmetric-difference group laws of the fixture: `sym_diff` is
commutative and associative, `infimum()` is its identity, and every element is
self-inverse. -/
theorem sym_diff_group_laws (N : Nat) (a b c : Powerset N) :
    a.symDiff b = b.symDiff a
    ∧ (a.symDiff b).symDiff c = a.symDiff (b.symDiff c)
    ∧ a.symDiff Powerset.infimum = a
    ∧ a.symDiff a = Powerset.infimum := by
  refine ⟨?_, ?_, ?_, ?_⟩ <;> apply Powerset.ext_mask
  · exact Nat.xor_comm a.mask b.mask
  · exact Nat.xor_assoc a.mask b.mask c.mask
  · exact Nat.xor_zero a.mask
  · exact Nat.xor_self a.mask

/-- **C8.** Iterating a powerset value yields exactly its set bit positions in
ascending order, then terminates with the receiver exhausted (`mask = 0`); a
further iteration of the exhausted value yields nothing; iterating `{0,2}`
produces `0` then `2`. -/
theorem iteration_drains_ascending (N : Nat) (p : Powerset N)
    (hm : p.mask < 2 ^ 64) :
    (List.Pairwise (· < ·) p.iterate.1
    ∧ (∀ i, i ∈ p.iterate.1 ↔ p.mask.testBit i = true)
    ∧ p.iterate.2 = (⟨0⟩ : Powerset N)
    ∧ Powerset.iterate (⟨0⟩ : Powerset N) = ([], ⟨0⟩))
    ∧ Powerset.iterate (Powerset.fromIter (N := 5) [0, 2]) = ([0, 2], ⟨0⟩) := by
  refine ⟨?_, by decide⟩
  obtain ⟨m⟩ := p
  obtain ⟨hfin, hpair, hmem⟩ := drain_spec m hm (m + 1) (by omega) N
  exact ⟨hpair, hmem, hfin, rfl⟩

/-- Witness for C8 at `p = {0,2} : Powerset 5`. -/
theorem iteration_drains_ascending_witness :
    (Powerset.iterate (⟨5⟩ : Powerset 5)).2 = (⟨0⟩ : Powerset 5) :=
  ((iteration_drains_ascending 5 ⟨5⟩ (by decide)).1).2.2.1

/-- **C9.** Double complement is the identity on valid values of the fixture:
`complement(complement(a)) = a` whenever the mask bits `≥ N` are zero. -/
theorem double_complement (N : Nat) (hN : N ≤ 64) (a : Powerset N)
    (ha : a.bitsHighClear) :
    a.complement.complement = a := by
  apply Powerset.ext_mask
  apply Nat.eq_of_testBit_eq
  intro i
  rw [complement_testBit hN, complement_testBit hN]
  by_cases hi : i < N
  · cases hx : a.mask.testBit i <;> simp [hi]
  · simp [hi, ha i (Nat.le_of_not_lt hi)]

/-- Witness for C9 at `N = 5`, `a = {0,2}`. -/
theorem double_complement_witness :
    Powerset.complement (Powerset.complement (⟨5⟩ : Powerset 5)) = ⟨5⟩ :=
  double_complement 5 (by decide) ⟨5⟩ (by decide)

/-- **C10.** The derived total order (`#[derive(Ord)]`, comparing raw masks)
is not consistent with the subset partial order: on the valid values `{0}` and
`{1}` of `Powerset<5>`, `partial_cmp` returns `None` while `cmp` returns
`Less`, so `cmp` does not refine `partial_cmp`. -/
theorem derived_ord_vs_partial_cmp :
    (Powerset.fromIter (N := 5) [0]).bitsHighClear
    ∧ (Powerset.fromIter (N := 5) [1]).bitsHighClear
    ∧ Powerset.partialCmp (Powerset.fromIter (N := 5) [0])
        (Powerset.fromIter [1]) = none
    ∧ Powerset.cmp (Powerset.fromIter (N := 5) [0])
        (Powerset.fromIter [1]) = .lt
    ∧ ¬(∀ a b : Powerset 5,
        Powerset.cmp a b = .lt → Powerset.partialCmp a b = some .lt) := by
  refine ⟨by decide, by decide, by decide, by decide, ?_⟩
  intro h
  exact absurd
    (h (Powerset.fromIter [0]) (Powerset.fromIter [1]) (by decide))
    (by decide)

end Noether
